import Mathlib

/-!
# Verification of `isprime.go` (authenticfake/clike)

A shallow embedding of the Go program `src/isprime.go` and theorems about it.

* Values of type `int64` are integers (`Int`) of the range `[-2^63, 2^63)`;
  the one place where the source does arithmetic that could leave that range,
  the increment `i += 2`, wraps explicitly (`wrapInt64`).
* Values of type `float64` are IEEE-754 binary64 numbers.  `IsPrime` only ever
  converts an `n ≥ 3`, so only non-negative finite numbers are modelled: a
  53-bit significand with the leading bit explicit and the biased exponent of
  the encoding, the value being `mant * 2^bexp / 2^1075`.
* The `for` loop is iterated by a fuel counter; running out of fuel is `none`.
-/

namespace Clike

/-! ## Machine integers -/

/-- Smallest `int64`. -/
def minInt64 : Int := -(2 ^ 63)

/-- Largest `int64`. -/
def maxInt64 : Int := 2 ^ 63 - 1

/-- The integer `n` is a value of type `int64`. -/
def inInt64 (n : Int) : Prop := minInt64 ≤ n ∧ n ≤ maxInt64

instance (n : Int) : Decidable (inInt64 n) := by
  unfold inInt64; exact inferInstance

/-- Two's-complement wrap-around of an integer result to 64 bits. -/
def wrapInt64 (z : Int) : Int := (z + 2 ^ 63) % 2 ^ 64 - 2 ^ 63

/-! ## IEEE-754 binary64, non-negative finite values -/

/-- A non-negative finite binary64 number: `mant * 2^bexp / 2^1075`, where for a
nonzero number `2^52 ≤ mant < 2^53` (the 52 stored fraction bits and the
implicit leading one) and `bexp` is the biased exponent. -/
structure Float64 where
  mant : Nat
  bexp : Nat
  deriving DecidableEq, Repr

/-- Number of binary digits of `n`, for `n < 2^fuel`. -/
def bitLength : Nat → Nat → Nat
  | 0, _ => 0
  | fuel + 1, n => if n = 0 then 0 else bitLength fuel (n / 2) + 1

/-- Brings a significand that rounding carried up to `2^53` back to 53 bits. -/
def renorm (m e : Nat) : Float64 :=
  if m = 2 ^ 53 then ⟨2 ^ 52, e + 1⟩ else ⟨m, e⟩

/-- The conversion `float64(n)` of a non-negative integer below `2^64`: the
nearest binary64 number, ties to the even significand. -/
def float64OfNat (n : Nat) : Float64 :=
  if n = 0 then ⟨0, 0⟩
  else
    let b := bitLength 64 n
    if b ≤ 53 then ⟨n * 2 ^ (53 - b), b + 1022⟩
    else
      let sh := b - 53
      let q := n / 2 ^ sh
      let r := n % 2 ^ sh
      let half := 2 ^ (sh - 1)
      let q1 := if half < r ∨ (r = half ∧ q % 2 = 1) then q + 1 else q
      renorm q1 (b + 1022)

/-- The conversion `float64(n)` for an `int64` that is not negative (the only
case `IsPrime` reaches). -/
def float64 (n : Int) : Float64 := float64OfNat n.toNat

/-- Integer square root of a number below `2^(2*k)`, one binary digit per step
starting from digit `k - 1`; `r` is the part of the root found so far. -/
def isqrtAux : Nat → Nat → Nat → Nat
  | 0, _, r => r
  | k + 1, n, r =>
    let c := r + 2 ^ k
    if c * c ≤ n then isqrtAux k n c else isqrtAux k n r

/-- Integer square root of a number below `2^106`. -/
def isqrt (n : Nat) : Nat := isqrtAux 53 n 0

/-- The function `math.Sqrt` on a non-negative finite number: the correctly
rounded square root (IEEE-754 `squareRoot`, round to nearest even).  The
argument is scaled to `M * 2^(2t)` with `M` of 105 or 106 bits, so that the
integer root of `M` has 53 bits; the remainder decides the rounding (the root
of an integer is never half-way between two integers). -/
def mathSqrt (x : Float64) : Float64 :=
  let M := if x.bexp % 2 = 1 then x.mant * 2 ^ 52 else x.mant * 2 ^ 53
  let q := isqrt M
  let q1 := if q < M - q * q then q + 1 else q
  renorm q1 ((x.bexp + 1023) / 2)

/-- The conversion `int64(x)` of a non-negative number in range: the fraction
is discarded (the significand is shifted by the unbiased exponent `bexp - 1075`). -/
def int64 (x : Float64) : Int :=
  if 1075 ≤ x.bexp then ((x.mant * 2 ^ (x.bexp - 1075) : Nat) : Int)
  else ((x.mant / 2 ^ (1075 - x.bexp) : Nat) : Int)

/-! ## `IsPrime` -/

/-- How a call ends: it returns a value, or the run-time system stops the
program (integer division by zero). -/
inductive Outcome where
  | returns (b : Bool)
  | panics
  deriving DecidableEq, Repr

/-- The loop bound of `IsPrime`, `limit := int64(math.Sqrt(float64(n)))`. -/
def limit (n : Int) : Int := int64 (mathSqrt (float64 n))

/-- The loop `for i := int64(3); i <= limit; i += 2 { if n%i == 0 {return false} }`
followed by `return true`, started at `i`. -/
def loop : Nat → Int → Int → Int → Option Outcome
  | 0, _, _, _ => none
  | fuel + 1, n, lim, i =>
    if i ≤ lim then
      if i = 0 then some Outcome.panics
      else if Int.tmod n i = 0 then some (Outcome.returns false)
      else loop fuel n lim (wrapInt64 (i + 2))
    else some (Outcome.returns true)

/-- The function `IsPrime(n int64) bool`; `fuel` bounds the number of times the
loop condition is evaluated. -/
def IsPrime (fuel : Nat) (n : Int) : Option Outcome :=
  if n < 2 then some (Outcome.returns false)
  else if Int.tmod n 2 = 0 then some (Outcome.returns (decide (n = 2)))
  else loop fuel n (limit n) 3

/-! ## The program: reading, parsing and printing

Standard input is a finite sequence of characters (valid UTF-8); the texts the
program writes are sequences of characters as well. -/

/-- The function `unicode.IsSpace`: the characters `strings.TrimSpace` removes. -/
def isSpace (c : Char) : Bool :=
  let v := c.toNat
  (9 ≤ v ∧ v ≤ 13) ∨ v = 0x20 ∨ v = 0x85 ∨ v = 0xA0 ∨ v = 0x1680 ∨
    (0x2000 ≤ v ∧ v ≤ 0x200A) ∨ v = 0x2028 ∨ v = 0x2029 ∨ v = 0x202F ∨ v = 0x205F ∨
    v = 0x3000

/-- The function `strings.TrimSpace`: leading and trailing white space removed. -/
def trimSpace (s : List Char) : List Char :=
  ((s.dropWhile isSpace).reverse.dropWhile isSpace).reverse

/-- The call `reader.ReadString('\n')` on the whole of standard input: the text
up to and including the first newline, or `none` when the input ends before a
newline (the error `io.EOF`). -/
def readString : List Char → Option (List Char)
  | [] => none
  | c :: cs => if c = '\n' then some [c] else (readString cs).map (fun l => c :: l)

/-- The two errors of `strconv.ParseInt`. -/
inductive NumError where
  | invalid
  | range
  deriving DecidableEq, Repr

/-- The digit loop of `strconv.ParseUint(s, 10, 64)`, `n` being the value read
so far. -/
def parseUintLoop : List Char → Nat → Except NumError Nat
  | [], n => Except.ok n
  | c :: cs, n =>
    if '0' ≤ c ∧ c ≤ '9' then
      if (2 ^ 64 - 1) / 10 + 1 ≤ n then Except.error NumError.range
      else if 2 ^ 64 - 1 < n * 10 + (c.toNat - 48) then Except.error NumError.range
      else parseUintLoop cs (n * 10 + (c.toNat - 48))
    else Except.error NumError.invalid

/-- The function `strconv.ParseUint(s, 10, 64)`. -/
def parseUint (s : List Char) : Except NumError Nat :=
  if s = [] then Except.error NumError.invalid else parseUintLoop s 0

/-- The function `strconv.ParseInt(s, 10, 64)`: an optional sign, then
`ParseUint`, then the check against `2^63`.  After a range error of `ParseUint`
the library goes on with the largest `uint64` and fails that check, which is a
range error again, so the error is passed on as it is. -/
def parseInt (s : List Char) : Except NumError Int :=
  match s with
  | [] => Except.error NumError.invalid
  | c :: cs =>
    let neg := decide (c = '-')
    let rest := if c = '+' ∨ c = '-' then cs else c :: cs
    match parseUint rest with
    | Except.error e => Except.error e
    | Except.ok un =>
      if ¬ neg ∧ 2 ^ 63 ≤ un then Except.error NumError.range
      else if neg ∧ 2 ^ 63 < un then Except.error NumError.range
      else Except.ok (if neg then -(un : Int) else (un : Int))

/-- The verb `%d` applied to an `int64`: the decimal digits, after a minus sign
for a negative number. -/
def formatInt (n : Int) : List Char := (toString n).toList

/-- The text of a `*strconv.NumError` from `ParseInt`; `quote` is
`strconv.Quote`. -/
def numErrorText (quote : List Char → List Char) (s : List Char) (e : NumError) : List Char :=
  "strconv.ParseInt: parsing ".toList ++ quote s ++
    (match e with
     | NumError.invalid => ": invalid syntax".toList
     | NumError.range => ": value out of range".toList)

/-- What a run of the program leaves behind. -/
structure Run where
  stdout : List Char
  stderr : List Char
  exitCode : Nat
  deriving DecidableEq, Repr

/-- The function `main`, run on the contents `stdin` of standard input; `quote`
is the library function `strconv.Quote` that renders the rejected text in a
parse error, `fuel` bounds the loop of `IsPrime`.  Leaving `main` normally is
exit status 0, `os.Exit(1)` is status 1, a run-time panic is status 2 (of its
report on standard error only the first line is kept, not the stack trace). -/
def main (quote : List Char → List Char) (fuel : Nat) (stdin : List Char) : Option Run :=
  let prompt := "Inserisci un numero: ".toList
  match readString stdin with
  | none => some ⟨prompt, "Errore lettura: EOF\n".toList, 1⟩
  | some line =>
    let s := trimSpace line
    match parseInt s with
    | Except.error e =>
      some ⟨prompt, "Numero non valido: ".toList ++ numErrorText quote s e ++ "\n".toList, 1⟩
    | Except.ok n =>
      match IsPrime fuel n with
      | none => none
      | some Outcome.panics =>
        some ⟨prompt, "panic: runtime error: integer divide by zero\n".toList, 2⟩
      | some (Outcome.returns true) =>
        some ⟨prompt ++ formatInt n ++ " è un numero primo\n".toList, [], 0⟩
      | some (Outcome.returns false) =>
        some ⟨prompt ++ formatInt n ++ " non è un numero primo\n".toList, [], 0⟩

/-! ## The loop counter -/

/-- The values of the counter `i` at the successive evaluations of the loop
condition `i <= limit` of `IsPrime`, the loop being started at `i` (the same
recursion as `loop`, recording `i` instead of the result). -/
def loopCounters : Nat → Int → Int → Int → List Int
  | 0, _, _, _ => []
  | fuel + 1, n, lim, i =>
    if i ≤ lim then
      if i = 0 then [i]
      else if Int.tmod n i = 0 then [i]
      else i :: loopCounters fuel n lim (wrapInt64 (i + 2))
    else [i]

/-- The values of the loop counter during a call `IsPrime(n)`: none when the
function returns before the loop. -/
def IsPrimeCounters (fuel : Nat) (n : Int) : List Int :=
  if n < 2 then []
  else if Int.tmod n 2 = 0 then []
  else loopCounters fuel n (limit n) 3

/-! ## The algorithm of the specification, in exact integers -/

/-- The loop of the specification: test the odd divisors `d = 3, 5, 7, …`
while `d * d ≤ n`; `false` if one divides `n`, `true` if none does. -/
def specLoop : Nat → Int → Int → Option Bool
  | 0, _, _ => none
  | fuel + 1, n, d =>
    if d * d ≤ n then
      if n % d = 0 then some false
      else specLoop fuel n (d + 2)
    else some true

/-- The algorithm of the specification: `false` if `n < 2`; `n == 2` if `n` is
even; otherwise the loop over the odd divisors with `d * d ≤ n`. -/
def specIsPrime (fuel : Nat) (n : Int) : Option Bool :=
  if n < 2 then some false
  else if n % 2 = 0 then some (decide (n = 2))
  else specLoop fuel n 3

/-! ## Decimal integers, as the specification reads them -/

/-- The value of a non-empty string of decimal digits; `none` for any other
string. -/
def decimalDigits (s : List Char) : Option Nat :=
  if s ≠ [] ∧ ∀ c ∈ s, '0' ≤ c ∧ c ≤ '9' then
    some (s.foldl (fun v c => v * 10 + (c.toNat - 48)) 0)
  else none

/-- The integer a text denotes in base 10: digits, after an optional sign. -/
def decimalInt (s : List Char) : Option Int :=
  match s with
  | [] => none
  | c :: cs =>
    if c = '-' then (decimalDigits cs).map (fun v => -(v : Int))
    else if c = '+' then (decimalDigits cs).map (fun v => (v : Int))
    else (decimalDigits (c :: cs)).map (fun v => (v : Int))

/-! ## The program as a sequence of actions -/

/-- What the program does to the outside, in the order it does it. -/
inductive Event where
  | print (s : List Char)
  | printErr (s : List Char)
  | readLine
  deriving DecidableEq, Repr

/-- The function `main` as the sequence of its actions: the same run as
`main`, action by action. -/
def mainEvents (quote : List Char → List Char) (fuel : Nat) (stdin : List Char) :
    Option (List Event) :=
  let prompt := Event.print "Inserisci un numero: ".toList
  match readString stdin with
  | none => some [prompt, Event.readLine, Event.printErr "Errore lettura: EOF\n".toList]
  | some line =>
    let s := trimSpace line
    match parseInt s with
    | Except.error e =>
      some [prompt, Event.readLine,
        Event.printErr ("Numero non valido: ".toList ++ numErrorText quote s e ++ "\n".toList)]
    | Except.ok n =>
      match IsPrime fuel n with
      | none => none
      | some Outcome.panics =>
        some [prompt, Event.readLine,
          Event.printErr "panic: runtime error: integer divide by zero\n".toList]
      | some (Outcome.returns true) =>
        some [prompt, Event.readLine, Event.print (formatInt n ++ " è un numero primo\n".toList)]
      | some (Outcome.returns false) =>
        some [prompt, Event.readLine,
          Event.print (formatInt n ++ " non è un numero primo\n".toList)]

/-- The text written to standard output by a sequence of actions. -/
def printed : List Event → List Char
  | [] => []
  | Event.print s :: es => s ++ printed es
  | _ :: es => printed es

/-- The text written to standard error by a sequence of actions. -/
def printedErr : List Event → List Char
  | [] => []
  | Event.printErr s :: es => s ++ printedErr es
  | _ :: es => printedErr es

/-! ## Lemmas: the square-root bound -/

theorem bitLength_zero (fuel : Nat) : bitLength fuel 0 = 0 := by
  cases fuel <;> simp [bitLength]

/-- `bitLength` finds the binade of a nonzero number. -/
theorem bitLength_spec (fuel : Nat) : ∀ n : Nat, n ≠ 0 → n < 2 ^ fuel →
    ∃ b, bitLength fuel n = b + 1 ∧ 2 ^ b ≤ n ∧ n < 2 ^ (b + 1) := by
  induction fuel with
  | zero => intro n h0 h; simp at h; omega
  | succ f ih =>
    intro n h0 h
    by_cases h2 : n / 2 = 0
    · refine ⟨0, ?_, ?_, ?_⟩
      · simp [bitLength, h0, h2, bitLength_zero]
      · simp; omega
      · simp; omega
    · have hlt : n / 2 < 2 ^ f := by
        rw [pow_succ] at h; omega
      obtain ⟨b, hb, hlo, hhi⟩ := ih (n / 2) h2 hlt
      refine ⟨b + 1, ?_, ?_, ?_⟩
      · simp [bitLength, h0, hb]
      · rw [pow_succ]; omega
      · rw [pow_succ]; omega

/-- The digit recurrence keeps `r * r ≤ n < (r + 2^k)^2`. -/
theorem isqrtAux_spec (k : Nat) : ∀ n r : Nat, r * r ≤ n → n < (r + 2 ^ k) * (r + 2 ^ k) →
    isqrtAux k n r * isqrtAux k n r ≤ n ∧
      n < (isqrtAux k n r + 1) * (isqrtAux k n r + 1) := by
  induction k with
  | zero => intro n r h1 h2; simpa [isqrtAux] using ⟨h1, h2⟩
  | succ k ih =>
    intro n r h1 h2
    simp only [isqrtAux]
    split
    · rename_i hc
      apply ih _ _ hc
      have : r + 2 ^ k + 2 ^ k = r + 2 ^ (k + 1) := by rw [pow_succ]; omega
      rw [this]; exact h2
    · rename_i hc
      exact ih _ _ h1 (by omega)

/-- Below `2^106` the digit recurrence computes the integer square root. -/
theorem isqrt_eq_sqrt (n : Nat) (h : n < 2 ^ 106) : isqrt n = Nat.sqrt n := by
  have := isqrtAux_spec 53 n 0 (by simp) (by norm_num; omega)
  exact Nat.eq_sqrt.2 this

/-- Rounding the root of `M` to the nearest integer does not fall below `a`
when `a * a < M + a`. -/
theorem le_round_sqrt (M a : Nat) (h : a * a < M + a) :
    a ≤ (if Nat.sqrt M < M - Nat.sqrt M * Nat.sqrt M then Nat.sqrt M + 1 else Nat.sqrt M) := by
  have h1 := Nat.sqrt_le M
  have h2 := Nat.lt_succ_sqrt M
  generalize Nat.sqrt M = q at *
  simp only [Nat.succ_eq_add_one] at h2
  by_contra hlt
  split at hlt
  · have : q + 2 ≤ a := by omega
    nlinarith
  · rename_i hr
    have : q + 1 ≤ a := by omega
    have : M ≤ q * q + q := by omega
    nlinarith

/-- Rounding the root of `M` to the nearest integer stays below `a` when
`M + a ≤ a * a`. -/
theorem round_sqrt_lt (M a : Nat) (ha : 1 ≤ a) (h : M + a ≤ a * a) :
    (if Nat.sqrt M < M - Nat.sqrt M * Nat.sqrt M then Nat.sqrt M + 1 else Nat.sqrt M) < a := by
  have h1 := Nat.sqrt_le M
  have h2 := Nat.lt_succ_sqrt M
  generalize Nat.sqrt M = q at *
  simp only [Nat.succ_eq_add_one] at h2
  by_contra hlt
  split at hlt
  · rename_i hr
    have h3 : a ≤ q + 1 := by omega
    have h4 : q * q + q < M := by omega
    obtain ⟨d, rfl⟩ : ∃ d, a = d + 1 := ⟨a - 1, by omega⟩
    have h5 : d ≤ q := by omega
    nlinarith
  · have h3 : a ≤ q := by omega
    nlinarith

/-- Moving a power of two between a significand and its exponent. -/
theorem pow_scale (K m X E a j : Nat) (hX : X * 2 ^ K = m * 2 ^ E)
    (ha : E + j = a + K) : m * 2 ^ a = X * 2 ^ j := by
  have hp : 0 < 2 ^ K := Nat.pow_pos (by norm_num)
  apply Nat.eq_of_mul_eq_mul_right hp
  calc m * 2 ^ a * 2 ^ K = m * 2 ^ (a + K) := by rw [pow_add, mul_assoc]
    _ = m * 2 ^ (E + j) := by rw [ha]
    _ = m * 2 ^ E * 2 ^ j := by rw [pow_add, mul_assoc]
    _ = X * 2 ^ K * 2 ^ j := by rw [hX]
    _ = X * 2 ^ j * 2 ^ K := by ring

/-- Truncation after renormalising: the significand shifted right. -/
theorem int64_renorm (Q e : Nat) (he : e ≤ 1075) :
    int64 (renorm Q e) = ((Q / 2 ^ (1075 - e) : Nat) : Int) := by
  unfold renorm int64
  split
  · rename_i hQ
    subst hQ
    simp only
    split
    · have : e = 1074 ∨ e = 1075 := by omega
      rcases this with rfl | rfl <;> norm_num
    · congr 1
      have h1 : 1075 - e = (1075 - (e + 1)) + 1 := by omega
      rw [h1, pow_succ 2 (1075 - (e + 1)), Nat.mul_comm (2 ^ (1075 - (e + 1))) 2,
        ← Nat.div_div_eq_div_mul]
      norm_num
  · simp only
    split
    · have : e = 1075 := by omega
      subst this
      simp
    · rfl

/-- The truncated square root as a rounded integer root: with `T` the weight of
the last place of the result, `int64 (mathSqrt x)` is `Q / T` where `Q` is the
root of `X * T^2` rounded to the nearest integer (`X` the value of `x`). -/
theorem int64_mathSqrt (x : Float64) (X : Nat) (hm : x.mant < 2 ^ 53) (hE : x.bexp ≤ 1127)
    (hX : X * 2 ^ 1075 = x.mant * 2 ^ x.bexp) :
    ∃ Q : Nat, int64 (mathSqrt x) = ((Q / 2 ^ (1075 - (x.bexp + 1023) / 2) : Nat) : Int) ∧
      (∀ a, a * a < X * (2 ^ (1075 - (x.bexp + 1023) / 2) * 2 ^ (1075 - (x.bexp + 1023) / 2)) + a
        → a ≤ Q) ∧
      (∀ a, 1 ≤ a →
        X * (2 ^ (1075 - (x.bexp + 1023) / 2) * 2 ^ (1075 - (x.bexp + 1023) / 2)) + a ≤ a * a
        → Q < a) := by
  obtain ⟨m, E⟩ := x
  simp only at hm hE hX ⊢
  generalize hk : 1075 - (E + 1023) / 2 = k
  generalize hMdef : (if E % 2 = 1 then m * 2 ^ 52 else m * 2 ^ 53) = M
  have hM106 : M < 2 ^ 106 := by
    rw [← hMdef]; split <;> omega
  have hMX : M = X * (2 ^ k * 2 ^ k) := by
    rw [← pow_add, ← hMdef]
    split
    · exact pow_scale 1075 m X E 52 (k + k) hX (by omega)
    · exact pow_scale 1075 m X E 53 (k + k) hX (by omega)
  have hdef : mathSqrt ⟨m, E⟩ =
      renorm (if Nat.sqrt M < M - Nat.sqrt M * Nat.sqrt M then Nat.sqrt M + 1 else Nat.sqrt M)
        ((E + 1023) / 2) := by
    simp only [mathSqrt, hMdef, isqrt_eq_sqrt M hM106]
  refine ⟨if Nat.sqrt M < M - Nat.sqrt M * Nat.sqrt M then Nat.sqrt M + 1 else Nat.sqrt M,
    ?_, ?_, ?_⟩
  · rw [hdef, int64_renorm _ _ (by omega), hk]
  · intro a ha
    rw [← hMX] at ha
    exact le_round_sqrt M a ha
  · intro a ha1 ha
    rw [← hMX] at ha
    exact round_sqrt_lt M a ha1 ha

/-- The conversion to `float64`: the result has a 53-bit significand, its value
`X` is an integer, and `X` is within half a unit in the last place (`c`) of `n`;
`b + 1` is the number of binary digits of `n`. -/
theorem float64OfNat_spec (n : Nat) (h0 : n ≠ 0) (h : n < 2 ^ 64) :
    ∃ b X c : Nat, 2 ^ b ≤ n ∧ n < 2 ^ (b + 1) ∧
      (float64OfNat n).mant < 2 ^ 53 ∧
      X * 2 ^ 1075 = (float64OfNat n).mant * 2 ^ (float64OfNat n).bexp ∧
      n ≤ X + c ∧ X ≤ n + c ∧
      b + 1023 ≤ (float64OfNat n).bexp ∧ (float64OfNat n).bexp ≤ b + 1024 ∧
      ((c = 0 ∧ (float64OfNat n).bexp = b + 1023) ∨ (53 ≤ b ∧ c = 2 ^ (b - 53))) := by
  obtain ⟨b, hb, hlo, hhi⟩ := bitLength_spec 64 n h0 h
  unfold float64OfNat
  simp only [h0, if_false, hb]
  by_cases hb53 : b + 1 ≤ 53
  · simp only [hb53, if_true]
    refine ⟨b, n, 0, hlo, hhi, ?_, ?_, le_refl _, le_refl _, by omega, by omega,
      Or.inl ⟨rfl, by omega⟩⟩
    · calc n * 2 ^ (53 - (b + 1)) < 2 ^ (b + 1) * 2 ^ (53 - (b + 1)) :=
            Nat.mul_lt_mul_of_pos_right hhi (Nat.pow_pos (by norm_num))
        _ = 2 ^ 53 := by rw [← pow_add]; congr 1; omega
    · have e : 1075 = (53 - (b + 1)) + (b + 1 + 1022) := by omega
      rw [mul_assoc, ← pow_add, ← e]
  · simp only [hb53, if_false]
    obtain ⟨sh, rfl⟩ : ∃ sh, b = sh + 52 := ⟨b - 52, by omega⟩
    have hsh : 1 ≤ sh := by omega
    have e1 : sh + 52 + 1 - 53 = sh := by omega
    have e2 : sh + 52 - 53 = sh - 1 := by omega
    have e3 : sh + 52 + 1 + 1022 = sh + 1075 := by omega
    rw [e1, e3]
    have hH : 2 ^ (sh - 1) = 2 ^ (sh + 52 - 53) := by rw [e2]
    have hP : 2 ^ sh = 2 * 2 ^ (sh - 1) := by
      rw [← pow_succ']; congr 1; omega
    have hPpos : 0 < 2 ^ sh := Nat.pow_pos (by norm_num)
    have hdm := Nat.div_add_mod n (2 ^ sh)
    have hr := Nat.mod_lt n hPpos
    have hq1 : 2 ^ 52 ≤ n / 2 ^ sh := by
      rw [Nat.le_div_iff_mul_le hPpos, ← pow_add, Nat.add_comm]; exact hlo
    have hq2 : n / 2 ^ sh < 2 ^ 53 := by
      rw [Nat.div_lt_iff_lt_mul hPpos, ← pow_add]
      have : 53 + sh = sh + 52 + 1 := by omega
      rw [this]; exact hhi
    have hE : 2 ^ (sh + 1075) = 2 ^ sh * 2 ^ 1075 := pow_add 2 sh 1075
    have hE1 : 2 ^ (sh + 1075 + 1) = 2 * (2 ^ sh * 2 ^ 1075) := by
      rw [pow_succ', hE]
    generalize 2 ^ 1075 = K at *
    generalize n / 2 ^ sh = q at *
    generalize n % 2 ^ sh = r at *
    generalize 2 ^ (sh - 1) = H at *
    generalize 2 ^ sh = P at *
    subst hP
    have hmul : (q + 1) * (2 * H) = 2 * H * q + 2 * H := by ring
    unfold renorm
    split
    · rename_i hup
      have hrH : H ≤ r := by omega
      split
      · rename_i hc
        refine ⟨sh + 52, (q + 1) * (2 * H), H, hlo, hhi, by norm_num, ?_, by omega, by omega,
          by simp, by simp, Or.inr ⟨by omega, hH⟩⟩
        simp only [hE1, hc]
        ring
      · rename_i hc
        refine ⟨sh + 52, (q + 1) * (2 * H), H, hlo, hhi, by simp only; omega, ?_, by omega,
          by omega, by simp, by simp, Or.inr ⟨by omega, hH⟩⟩
        simp only [hE]
        ring
    · rename_i hup
      have hrH : r ≤ H := by omega
      have hq53 : q ≠ 2 ^ 53 := by omega
      simp only [hq53, if_false]
      refine ⟨sh + 52, q * (2 * H), H, hlo, hhi, hq2, ?_, by nlinarith, by nlinarith,
        by simp, by simp, Or.inr ⟨by omega, hH⟩⟩
      simp only [hE]
      ring

/-- Half a unit in the last place of `float64(n)`, scaled by the weight `2^k` of
the last place of the square root, is less than the root of `n`. -/
theorem half_ulp_lt_sqrt (n b k : Nat) (hb53 : 53 ≤ b) (hb62 : b ≤ 62) (hlo : 2 ^ b ≤ n)
    (hk : k ≤ 52 - b / 2) : 2 ^ (b - 53) * 2 ^ k < Nat.sqrt n := by
  have hT : 2 ^ k ≤ 2 ^ (52 - b / 2) := Nat.pow_le_pow_right (by norm_num) hk
  have hmono : 2 ^ (b - 53) * 2 ^ k ≤ 2 ^ (b - 53) * 2 ^ (52 - b / 2) :=
    Nat.mul_le_mul_left _ hT
  have hs : 2 ^ (b - 53) * 2 ^ (52 - b / 2) + 1 ≤ Nat.sqrt n := by
    rw [Nat.le_sqrt]
    refine le_trans ?_ hlo
    interval_cases b <;> norm_num
  omega

/-- Arithmetic of the truncated root: `Q` is the root of `X * T^2` rounded to
the nearest integer, `X` is within `c` of `n`, and `c * T` is below the root
`s` of `n`.  Then `Q / T` is `s` or `s + 1`. -/
theorem root_bounds (n X c s T Q : Nat) (hs1 : s * s ≤ n)
    (hs2 : n < (s + 1) * (s + 1)) (hTpos : 0 < T) (hnX : n ≤ X + c) (hXn : X ≤ n + c)
    (hcT : c * T < s)
    (hle : ∀ a, a * a < X * (T * T) + a → a ≤ Q)
    (hlt : ∀ a, 1 ≤ a → X * (T * T) + a ≤ a * a → Q < a) :
    s ≤ Q / T ∧ Q / T ≤ s + 1 := by
  have hcs : c ≤ s := by nlinarith
  have hTT : T ≤ T * T := by nlinarith
  constructor
  · rw [Nat.le_div_iff_mul_le hTpos]
    apply hle
    have a1 : s * s * (T * T) ≤ (X + c) * (T * T) := Nat.mul_le_mul_right _ (by omega)
    have a2 : c * T * T < s * T := Nat.mul_lt_mul_of_pos_right hcT hTpos
    nlinarith
  · have : Q / T < s + 2 := by
      rw [Nat.div_lt_iff_lt_mul hTpos]
      apply hlt _ (by nlinarith)
      have a1 : X * (T * T) ≤ (s * s + 2 * s + c) * (T * T) :=
        Nat.mul_le_mul_right _ (by nlinarith)
      have a2 : (s + 2) * T ≤ (s + 2) * (T * T) := Nat.mul_le_mul_left _ hTT
      nlinarith
    omega

/-- Arithmetic of the truncated root when the conversion is exact and the last
place of the root is fine enough (`s < T`): `Q / T` does not exceed `s`. -/
theorem root_exact (n s T Q : Nat) (hs2 : n < (s + 1) * (s + 1)) (hTpos : 0 < T)
    (hsT : s < T)
    (hlt : ∀ a, 1 ≤ a → n * (T * T) + a ≤ a * a → Q < a) :
    Q / T ≤ s := by
  have : Q / T < s + 1 := by
    rw [Nat.div_lt_iff_lt_mul hTpos]
    apply hlt _ (by nlinarith)
    have a1 : (n + 1) * (T * T) ≤ (s + 1) * (s + 1) * (T * T) :=
      Nat.mul_le_mul_right _ (by omega)
    have a2 : (s + 1) * T ≤ T * T := Nat.mul_le_mul_right _ (by omega)
    nlinarith
  omega

/-- The bound computed through `float64` for `1 ≤ n < 2^63`: it is the integer
square root of `n` or one more, and exactly the root below `2^52`. -/
theorem limit_spec (n : Nat) (h0 : n ≠ 0) (h : n < 2 ^ 63) :
    ∃ L : Nat, int64 (mathSqrt (float64OfNat n)) = (L : Int) ∧
      Nat.sqrt n ≤ L ∧ L ≤ Nat.sqrt n + 1 ∧ (n < 2 ^ 52 → L = Nat.sqrt n) := by
  obtain ⟨b, X, c, hlo, hhi, hm, hX, hnX, hXn, hE1, hE2, hc⟩ :=
    float64OfNat_spec n h0 (lt_trans h (by norm_num))
  have hb62 : b ≤ 62 := by
    have h1 : 2 ^ b < 2 ^ 63 := lt_of_le_of_lt hlo h
    have h2 := (Nat.pow_lt_pow_iff_right (by norm_num : 1 < 2)).1 h1
    omega
  obtain ⟨Q, hL, hle, hlt⟩ := int64_mathSqrt (float64OfNat n) X hm (by omega) hX
  have hTpos : 0 < 2 ^ (1075 - ((float64OfNat n).bexp + 1023) / 2) :=
    Nat.pow_pos (by norm_num)
  have hs1 : Nat.sqrt n * Nat.sqrt n ≤ n := Nat.sqrt_le n
  have hs2 : n < (Nat.sqrt n + 1) * (Nat.sqrt n + 1) := Nat.lt_succ_sqrt n
  have hs0 : 0 < Nat.sqrt n := Nat.sqrt_pos.2 (Nat.pos_of_ne_zero h0)
  have hcT : c * 2 ^ (1075 - ((float64OfNat n).bexp + 1023) / 2) < Nat.sqrt n := by
    rcases hc with ⟨hc0, _⟩ | ⟨hb53, hc53⟩
    · rw [hc0, Nat.zero_mul]; exact hs0
    · rw [hc53]
      exact half_ulp_lt_sqrt n b _ hb53 hb62 hlo (by omega)
  have hb := root_bounds n X c (Nat.sqrt n) _ Q hs1 hs2 hTpos hnX hXn hcT hle hlt
  refine ⟨_, hL, hb.1, hb.2, ?_⟩
  intro h52
  have hb51 : b ≤ 51 := by
    have h1 : 2 ^ b < 2 ^ 52 := lt_of_le_of_lt hlo h52
    have h2 := (Nat.pow_lt_pow_iff_right (by norm_num : 1 < 2)).1 h1
    omega
  have hc0 : c = 0 ∧ (float64OfNat n).bexp = b + 1023 := by
    rcases hc with hc | ⟨hb53, _⟩
    · exact hc
    · omega
  have hXeq : X = n := by omega
  rw [hXeq] at hlt
  have hsT : Nat.sqrt n < 2 ^ (1075 - ((float64OfNat n).bexp + 1023) / 2) := by
    rw [Nat.sqrt_lt, ← pow_add]
    refine lt_of_lt_of_le hhi (Nat.pow_le_pow_right (by norm_num) ?_)
    rw [hc0.2]
    omega
  have := root_exact n (Nat.sqrt n) _ Q hs2 hTpos hsT hlt
  omega

/-! ## Lemmas: the loop and `IsPrime` -/

/-- In range nothing wraps. -/
theorem wrapInt64_eq (z : Int) (h1 : -(2 ^ 63) ≤ z) (h2 : z < 2 ^ 63) : wrapInt64 z = z := by
  unfold wrapInt64; omega

/-- The loop on non-negative numbers: started at `I > 0` with a bound `L` far
from the end of the `int64` range and `fuel + 1` evaluations of the condition
available, where `L < I + 2 * fuel`, it returns, and returns `true` exactly when
none of `I, I + 2, I + 4, …` up to `L` divides `N`. -/
theorem loop_spec (N L : Nat) (hL : L < 2 ^ 62) : ∀ fuel I : Nat, 0 < I → L < I + 2 * fuel →
    ∃ b, loop (fuel + 1) (N : Int) (L : Int) (I : Int) = some (Outcome.returns b) ∧
      (b = true ↔ ∀ k, I + 2 * k ≤ L → ¬ (I + 2 * k) ∣ N) := by
  intro fuel
  induction fuel with
  | zero =>
    intro I hI hlt
    refine ⟨true, ?_, ?_⟩
    · have : ¬ ((I : Int) ≤ (L : Int)) := by omega
      simp [loop, this]
    · simp only [true_iff]
      intro k hk
      omega
  | succ f ih =>
    intro I hI hlt
    by_cases hle : I ≤ L
    · have h1 : (I : Int) ≤ (L : Int) := by omega
      have h2 : (I : Int) ≠ 0 := by omega
      have h3 : Int.tmod (N : Int) (I : Int) = ((N % I : Nat) : Int) := rfl
      by_cases hdiv : N % I = 0
      · refine ⟨false, ?_, ?_⟩
        · rw [loop]
          simp [h1, h2, h3, hdiv]
        · simp only [Bool.false_eq_true, false_iff, not_forall]
          exact ⟨0, by simpa using hle, by simpa using Nat.dvd_of_mod_eq_zero hdiv⟩
      · have h4 : wrapInt64 ((I : Int) + 2) = ((I + 2 : Nat) : Int) := by
          rw [wrapInt64_eq _ (by omega) (by omega)]; rfl
        obtain ⟨b, hb, hbs⟩ := ih (I + 2) (by omega) (by omega)
        refine ⟨b, ?_, ?_⟩
        · rw [loop]
          have h5 : ¬ ((N % I : Nat) : Int) = 0 := by exact_mod_cast hdiv
          simp only [h1, h2, h3, h5, if_true, if_false, h4]
          exact hb
        · rw [hbs]
          constructor
          · intro h k hk
            cases k with
            | zero => simpa using fun hd => hdiv (Nat.mod_eq_zero_of_dvd hd)
            | succ k =>
              have := h k (by omega)
              have e : I + 2 * (k + 1) = I + 2 + 2 * k := by ring
              rw [e]; exact this
          · intro h k hk
            have := h (k + 1) (by omega)
            have e : I + 2 * (k + 1) = I + 2 + 2 * k := by ring
            rw [← e]; exact this
    · refine ⟨true, ?_, ?_⟩
      · have : ¬ ((I : Int) ≤ (L : Int)) := by omega
        rw [loop]; simp [this]
      · simp only [true_iff]
        intro k hk
        omega

/-- The loop bound of `IsPrime` for `1 ≤ N < 2^63`. -/
theorem limit_natCast (N : Nat) (h0 : N ≠ 0) (h : N < 2 ^ 63) :
    ∃ L : Nat, limit (N : Int) = (L : Int) ∧
      Nat.sqrt N ≤ L ∧ L ≤ Nat.sqrt N + 1 ∧ (N < 2 ^ 52 → L = Nat.sqrt N) := by
  unfold limit float64
  rw [Int.toNat_ofNat]
  exact limit_spec N h0 h

/-- The root of a number from 3 on, plus one, is less than the number. -/
theorem sqrt_succ_lt (N : Nat) (h : 3 ≤ N) : Nat.sqrt N + 1 < N := by
  have h1 := Nat.sqrt_le N
  by_contra hc
  have h2 : N ≤ Nat.sqrt N + 1 := by omega
  generalize Nat.sqrt N = s at *
  have h3 : 2 ≤ s := by omega
  nlinarith

/-- No odd number from 3 up to a bound `L` between the root of `N` and `N`
divides the odd number `N ≥ 3` exactly when `N` is prime. -/
theorem no_odd_divisor_iff_prime (N L : Nat) (h3 : 3 ≤ N) (hodd : N % 2 ≠ 0)
    (hL1 : Nat.sqrt N ≤ L) (hL2 : L < N) :
    (∀ k, 3 + 2 * k ≤ L → ¬ (3 + 2 * k) ∣ N) ↔ Nat.Prime N := by
  constructor
  · intro h
    by_contra hnp
    have hp : (Nat.minFac N).Prime := Nat.minFac_prime (by omega)
    have hdvd : Nat.minFac N ∣ N := Nat.minFac_dvd N
    have hsq : Nat.minFac N ^ 2 ≤ N := Nat.minFac_sq_le_self (by omega) hnp
    have hle : Nat.minFac N ≤ L := le_trans (Nat.le_sqrt'.2 hsq) hL1
    have h2 : 2 ≤ Nat.minFac N := hp.two_le
    have hpodd : Nat.minFac N % 2 = 1 := by
      by_contra hev
      have : 2 ∣ Nat.minFac N := Nat.dvd_of_mod_eq_zero (by omega)
      have : 2 ∣ N := Nat.dvd_trans this hdvd
      omega
    generalize Nat.minFac N = p at *
    have e : p = 3 + 2 * ((p - 3) / 2) := by omega
    apply h ((p - 3) / 2)
    · omega
    · rw [← e]; exact hdvd
  · intro hp k hk hd
    rcases (Nat.dvd_prime hp).1 hd with h1 | h1 <;> omega

/-- The function `IsPrime` on every `int64`, with fuel from `2^31` on: it
returns, and returns `true` exactly for the prime numbers. -/
theorem IsPrime_spec (n : Int) (hn : inInt64 n) (fuel : Nat) (hf : 2 ^ 31 ≤ fuel) :
    ∃ b, IsPrime fuel n = some (Outcome.returns b) ∧ (b = true ↔ Nat.Prime n.toNat) := by
  unfold IsPrime
  by_cases h2 : n < 2
  · refine ⟨false, by simp [h2], ?_⟩
    simp only [Bool.false_eq_true, false_iff]
    intro hp
    have := hp.two_le
    omega
  · obtain ⟨N, rfl⟩ : ∃ N : Nat, n = (N : Int) := ⟨n.toNat, by omega⟩
    have hN2 : 2 ≤ N := by omega
    have hN63 : N < 2 ^ 63 := by
      have := hn.2
      unfold maxInt64 at this
      omega
    have hmod : Int.tmod (N : Int) 2 = ((N % 2 : Nat) : Int) := rfl
    simp only [h2, if_false, hmod, Int.toNat_ofNat]
    by_cases hev : N % 2 = 0
    · refine ⟨decide ((N : Int) = 2), by simp [hev], ?_⟩
      simp only [decide_eq_true_eq]
      constructor
      · intro h
        have : N = 2 := by exact_mod_cast h
        rw [this]; exact Nat.prime_two
      · intro hp
        have hd : 2 ∣ N := Nat.dvd_of_mod_eq_zero hev
        rcases (Nat.dvd_prime hp).1 hd with h1 | h1
        · omega
        · exact_mod_cast h1.symm
    · have hev' : ¬ ((N % 2 : Nat) : Int) = 0 := by exact_mod_cast hev
      simp only [hev', if_false]
      obtain ⟨L, hL, hL1, hL2, _⟩ := limit_natCast N (by omega) hN63
      have hs32 : Nat.sqrt N < 2 ^ 32 := by
        rw [Nat.sqrt_lt]
        exact lt_trans hN63 (by norm_num)
      have hLN : L < N := lt_of_le_of_lt hL2 (sqrt_succ_lt N (by omega))
      obtain ⟨f, rfl⟩ : ∃ f, fuel = f + 1 := ⟨fuel - 1, by omega⟩
      obtain ⟨b, hb, hbs⟩ := loop_spec N L (by omega) f 3 (by norm_num) (by omega)
      refine ⟨b, ?_, ?_⟩
      · rw [hL]; exact hb
      · rw [hbs]
        exact no_odd_divisor_iff_prime N L (by omega) hev hL1 hLN

/-- Primality of an integer in the words of the glossary (at least 2, no
positive divisor other than 1 and itself) is `Nat.Prime`. -/
theorem prime_toNat_iff (n : Int) :
    Nat.Prime n.toNat ↔ (2 ≤ n ∧ ∀ d : Int, 0 < d → d ∣ n → d = 1 ∨ d = n) := by
  by_cases h2 : 2 ≤ n
  · obtain ⟨N, rfl⟩ : ∃ N : Nat, n = (N : Int) := ⟨n.toNat, by omega⟩
    rw [Int.toNat_ofNat, Nat.prime_def]
    constructor
    · rintro ⟨hN, h⟩
      refine ⟨h2, fun d hd hdvd => ?_⟩
      obtain ⟨D, rfl⟩ : ∃ D : Nat, d = (D : Int) := ⟨d.toNat, by omega⟩
      rcases h D (Int.natCast_dvd_natCast.1 hdvd) with h1 | h1
      · left; exact_mod_cast h1
      · right; exact_mod_cast h1
    · rintro ⟨_, h⟩
      refine ⟨by omega, fun m hm => ?_⟩
      have hm0 : 0 < m := Nat.pos_of_dvd_of_pos hm (by omega)
      rcases h (m : Int) (by omega) (Int.natCast_dvd_natCast.2 hm) with h1 | h1
      · left; exact_mod_cast h1
      · right; exact_mod_cast h1
  · constructor
    · intro hp
      have := hp.two_le
      omega
    · intro h
      exact absurd h.1 h2

/-- What `strconv.ParseInt` accepts is an `int64`. -/
theorem parseInt_range (s : List Char) (n : Int) (h : parseInt s = Except.ok n) :
    inInt64 n := by
  unfold parseInt at h
  cases s with
  | nil => simp at h
  | cons c cs =>
    simp only at h
    split at h
    · simp at h
    · rename_i un _
      split at h
      · simp at h
      · split at h
        · simp at h
        · rename_i h1 h2
          simp only [Except.ok.injEq] at h
          subst h
          unfold inInt64 minInt64 maxInt64
          by_cases hneg : c = '-'
          · simp only [hneg, decide_True, if_true] at h1 h2 ⊢
            simp only [true_and, not_lt] at h2
            constructor <;> omega
          · simp only [hneg, decide_False, if_false] at h1 h2 ⊢
            simp at h1
            constructor <;> omega

/-! ## Lemmas: the program -/

/-- Without a newline in the input, `ReadString` fails. -/
theorem readString_eq_none (s : List Char) (h : '\n' ∉ s) : readString s = none := by
  induction s with
  | nil => rfl
  | cons c cs ih =>
    simp only [List.mem_cons, not_or] at h
    have hc : ¬ c = '\n' := fun e => h.1 e.symm
    simp [readString, hc, ih h.2]

/-- What the digit loop of `ParseUint` accepts is a string of digits, and its
result is their value in base 10 on top of the value read so far. -/
theorem parseUintLoop_ok : ∀ (cs : List Char) (acc un : Nat),
    parseUintLoop cs acc = Except.ok un →
    (∀ c ∈ cs, '0' ≤ c ∧ c ≤ '9') ∧
      un = cs.foldl (fun v c => v * 10 + (c.toNat - 48)) acc := by
  intro cs
  induction cs with
  | nil =>
    intro acc un h
    simp only [parseUintLoop, Except.ok.injEq] at h
    simp [h]
  | cons c cs ih =>
    intro acc un h
    rw [parseUintLoop] at h
    split at h
    · rename_i hd
      split at h
      · simp at h
      · split at h
        · simp at h
        · obtain ⟨h1, h2⟩ := ih _ un h
          refine ⟨?_, ?_⟩
          · intro x hx
            rcases List.mem_cons.1 hx with rfl | hx
            · exact hd
            · exact h1 x hx
          · simpa using h2
    · simp at h

/-- What `ParseUint` accepts is a decimal numeral, and its result is the value. -/
theorem parseUint_ok (s : List Char) (un : Nat) (h : parseUint s = Except.ok un) :
    decimalDigits s = some un := by
  unfold parseUint at h
  split at h
  · simp at h
  · rename_i hne
    obtain ⟨h1, h2⟩ := parseUintLoop_ok s 0 un h
    unfold decimalDigits
    rw [if_pos ⟨hne, h1⟩, h2]

/-- What `ParseInt` accepts is a decimal integer in the reading of the
specification, and its result is the value. -/
theorem parseInt_ok (s : List Char) (n : Int) (h : parseInt s = Except.ok n) :
    decimalInt s = some n := by
  unfold parseInt at h
  cases s with
  | nil => simp at h
  | cons c cs =>
    simp only at h
    split at h
    · simp at h
    · rename_i un hun
      split at h
      · simp at h
      · split at h
        · simp at h
        · simp only [Except.ok.injEq] at h
          subst h
          unfold decimalInt
          by_cases hneg : c = '-'
          · subst hneg
            simp only [or_true, if_true] at hun
            simp [parseUint_ok _ _ hun]
          · by_cases hpos : c = '+'
            · subst hpos
              simp only [true_or, if_true] at hun
              simp [parseUint_ok _ _ hun]
            · simp only [hneg, hpos, or_self, if_false] at hun
              simp [hneg, hpos, parseUint_ok _ _ hun]

/-- The texts of `main` are those of its actions. -/
theorem mainEvents_printed (quote : List Char → List Char) (fuel : Nat) (stdin : List Char) :
    (mainEvents quote fuel stdin).map (fun es => (printed es, printedErr es)) =
      (main quote fuel stdin).map (fun r => (r.stdout, r.stderr)) := by
  unfold mainEvents main
  cases h1 : readString stdin with
  | none => simp [printed, printedErr]
  | some line =>
    simp only
    cases h2 : parseInt (trimSpace line) with
    | error e => simp [printed, printedErr]
    | ok n =>
      simp only
      cases h3 : IsPrime fuel n with
      | none => simp
      | some o =>
        cases o with
        | panics => simp [printed, printedErr]
        | returns b => cases b <;> simp [printed, printedErr]

/-! ## Lemmas: fuel, the counter, the algorithm of the specification -/

/-- One more unit of fuel does not change a result of the loop. -/
theorem loop_succ (n lim : Int) : ∀ (fuel : Nat) (i : Int) (o : Outcome),
    loop fuel n lim i = some o → loop (fuel + 1) n lim i = some o := by
  intro fuel
  induction fuel with
  | zero => intro i o h; simp [loop] at h
  | succ f ih =>
    intro i o h
    rw [loop] at h ⊢
    by_cases h1 : i ≤ lim
    · simp only [h1, if_true] at h ⊢
      by_cases h2 : i = 0
      · simp only [h2, if_true] at h ⊢; exact h
      · simp only [h2, if_false] at h ⊢
        by_cases h3 : Int.tmod n i = 0
        · simp only [h3, if_true] at h ⊢; exact h
        · simp only [h3, if_false] at h ⊢
          exact ih _ _ h
    · simp only [h1, if_false] at h ⊢; exact h

/-- More fuel does not change a result of `IsPrime`. -/
theorem IsPrime_mono (n : Int) (fuel : Nat) (o : Outcome) (h : IsPrime fuel n = some o) :
    ∀ k, IsPrime (fuel + k) n = some o := by
  intro k
  induction k with
  | zero => exact h
  | succ k ih =>
    unfold IsPrime at ih ⊢
    by_cases h1 : n < 2
    · simp only [h1, if_true] at ih ⊢; exact ih
    · simp only [h1, if_false] at ih ⊢
      by_cases h2 : Int.tmod n 2 = 0
      · simp only [h2, if_true] at ih ⊢; exact ih
      · simp only [h2, if_false] at ih ⊢
        exact loop_succ _ _ _ _ _ ih

/-- Whatever the fuel, a result of `IsPrime` on an `int64` is the boolean that
says whether the number is prime: never a panic. -/
theorem IsPrime_result (n : Int) (hn : inInt64 n) (fuel : Nat) (o : Outcome)
    (h : IsPrime fuel n = some o) :
    ∃ b, o = Outcome.returns b ∧ (b = true ↔ Nat.Prime n.toNat) := by
  have h1 := IsPrime_mono n fuel o h (2 ^ 31)
  obtain ⟨b, hb, hbs⟩ := IsPrime_spec n hn (fuel + 2 ^ 31) (Nat.le_add_left _ _)
  rw [h1] at hb
  exact ⟨b, Option.some.inj hb, hbs⟩

/-- The invariant of the loop counter: started odd, at least 3 and at most
`lim + 2`, with `lim` far from the end of the range, it stays so. -/
theorem loopCounters_invariant (n lim : Int) (hlim : lim < 2 ^ 62) :
    ∀ (fuel : Nat) (i : Int), i % 2 = 1 → 3 ≤ i → i ≤ lim + 2 →
      ∀ j ∈ loopCounters fuel n lim i, j % 2 = 1 ∧ 3 ≤ j ∧ j ≤ lim + 2 := by
  intro fuel
  induction fuel with
  | zero => intro i _ _ _ j hj; simp [loopCounters] at hj
  | succ f ih =>
    intro i ho h3 hle j hj
    rw [loopCounters] at hj
    by_cases h1 : i ≤ lim
    · simp only [h1, if_true] at hj
      by_cases h2 : i = 0
      · omega
      · simp only [h2, if_false] at hj
        by_cases h4 : Int.tmod n i = 0
        · simp only [h4, if_true, List.mem_singleton] at hj
          subst hj; exact ⟨ho, h3, hle⟩
        · simp only [h4, if_false, List.mem_cons] at hj
          rcases hj with rfl | hj
          · exact ⟨ho, h3, hle⟩
          · rw [wrapInt64_eq _ (by omega) (by omega)] at hj
            exact ih (i + 2) (by omega) (by omega) (by omega) j hj
    · simp only [h1, if_false, List.mem_singleton] at hj
      subst hj; exact ⟨ho, h3, hle⟩

/-- The loop of the specification is the loop of `IsPrime` run with the
integer square root as the bound. -/
theorem specLoop_eq_loop (N : Nat) (hN : N < 2 ^ 63) : ∀ (fuel I : Nat), 0 < I →
    (specLoop fuel (N : Int) (I : Int)).map Outcome.returns =
      loop fuel (N : Int) (Nat.sqrt N : Int) (I : Int) := by
  have hs : Nat.sqrt N < 2 ^ 32 := by
    rw [Nat.sqrt_lt]; exact lt_trans hN (by norm_num)
  intro fuel
  induction fuel with
  | zero => intro I _; simp [specLoop, loop]
  | succ f ih =>
    intro I hI
    rw [specLoop, loop]
    have hcond : ((I : Int) * (I : Int) ≤ (N : Int)) ↔ ((I : Int) ≤ (Nat.sqrt N : Int)) := by
      rw [Nat.cast_le, Nat.le_sqrt]; exact_mod_cast Iff.rfl
    have hmod : Int.tmod (N : Int) (I : Int) = (N : Int) % (I : Int) := rfl
    by_cases h1 : (I : Int) ≤ (Nat.sqrt N : Int)
    · have h1' := hcond.2 h1
      have h2 : ¬ (I : Int) = 0 := by omega
      simp only [h1, h1', if_true, h2, if_false, hmod]
      by_cases h3 : (N : Int) % (I : Int) = 0
      · simp [h3]
      · simp only [h3, if_false]
        have hle : I ≤ Nat.sqrt N := by exact_mod_cast h1
        rw [wrapInt64_eq _ (by omega) (by omega)]
        exact_mod_cast ih (I + 2) (by omega)
    · have h1' : ¬ ((I : Int) * (I : Int) ≤ (N : Int)) := fun h => h1 (hcond.1 h)
      simp [h1, h1']

/-! ## The claims -/

/-- C1: for every `int64` `n`, `IsPrime(n)` returns, and returns `true` if and
only if `n` is prime, that is `n ≥ 2` and `n` has no positive divisor other than
1 and `n`. -/
theorem isPrime_true_iff_prime (n : Int) (hn : inInt64 n) (fuel : Nat) (hf : 2 ^ 31 ≤ fuel) :
    ∃ b, IsPrime fuel n = some (Outcome.returns b) ∧
      (b = true ↔ (2 ≤ n ∧ ∀ d : Int, 0 < d → d ∣ n → d = 1 ∨ d = n)) := by
  obtain ⟨b, hb, hbs⟩ := IsPrime_spec n hn fuel hf
  exact ⟨b, hb, hbs.trans (prime_toNat_iff n)⟩

/-- Witness of C1 at `n = 7919`. -/
theorem isPrime_true_iff_prime_witness :
    inInt64 7919 ∧ 2 ^ 31 ≤ 2 ^ 31 ∧
      ∃ b, IsPrime (2 ^ 31) 7919 = some (Outcome.returns b) ∧
        (b = true ↔ ((2 : Int) ≤ 7919 ∧ ∀ d : Int, 0 < d → d ∣ 7919 → d = 1 ∨ d = 7919)) :=
  ⟨by decide, le_refl _, isPrime_true_iff_prime 7919 (by decide) (2 ^ 31) (le_refl _)⟩

/-- C2: for every odd prime `p` whose square is an `int64`, the loop bound for
`p * p` reaches the boundary divisor `p`, and `IsPrime(p * p)` returns `false`. -/
theorem isPrime_square_of_odd_prime (p : Nat) (hp : Nat.Prime p) (hodd : p % 2 = 1)
    (hsq : p * p < 2 ^ 63) (fuel : Nat) (hf : 2 ^ 31 ≤ fuel) :
    (p : Int) ≤ limit ((p : Int) * (p : Int)) ∧
      IsPrime fuel ((p : Int) * (p : Int)) = some (Outcome.returns false) := by
  have hcast : (p : Int) * (p : Int) = ((p * p : Nat) : Int) := by push_cast; rfl
  have hp2 := hp.two_le
  rw [hcast]
  constructor
  · obtain ⟨L, hL, hL1, _, _⟩ := limit_natCast (p * p) (by positivity) hsq
    rw [hL, Nat.sqrt_eq] at *
    exact_mod_cast hL1
  · have hin : inInt64 ((p * p : Nat) : Int) := by
      unfold inInt64 minInt64 maxInt64
      constructor <;> omega
    obtain ⟨b, hb, hbs⟩ := IsPrime_spec _ hin fuel hf
    rw [Int.toNat_ofNat] at hbs
    have hnp : ¬ Nat.Prime (p * p) := Nat.not_prime_mul (by omega) (by omega)
    cases b with
    | false => exact hb
    | true => exact absurd (hbs.1 rfl) hnp

/-- Witness of C2 at `p = 89`, the square being 7921. -/
theorem isPrime_square_of_odd_prime_witness :
    Nat.Prime 89 ∧ 89 % 2 = 1 ∧ 89 * 89 < 2 ^ 63 ∧
      ((89 : Nat) : Int) ≤ limit (((89 : Nat) : Int) * ((89 : Nat) : Int)) ∧
      IsPrime (2 ^ 31) (((89 : Nat) : Int) * ((89 : Nat) : Int)) = some (Outcome.returns false) :=
  ⟨by norm_num, by norm_num, by norm_num,
    isPrime_square_of_odd_prime 89 (by norm_num) (by norm_num) (by norm_num) (2 ^ 31) (le_refl _)⟩

/-- C3: for every `int64` `n < 2` (1, 0, the negative numbers, the smallest
`int64`), `IsPrime(n)` returns `false`, before the loop and whatever the fuel. -/
theorem isPrime_lt_two (n : Int) (_hn : inInt64 n) (h : n < 2) (fuel : Nat) :
    IsPrime fuel n = some (Outcome.returns false) := by
  simp [IsPrime, h]

/-- Witness of C3 at the smallest `int64`. -/
theorem isPrime_lt_two_witness :
    inInt64 minInt64 ∧ minInt64 < 2 ∧ IsPrime 0 minInt64 = some (Outcome.returns false) :=
  ⟨by decide, by decide, isPrime_lt_two minInt64 (by decide) (by decide) 0⟩

/-- C4: `IsPrime(2)` returns `true`, and for every even `int64` `n` other than 2
(positive, zero or negative) `IsPrime(n)` returns `false`; the loop is not
entered, so this holds whatever the fuel. -/
theorem isPrime_even (fuel : Nat) :
    IsPrime fuel 2 = some (Outcome.returns true) ∧
      ∀ n : Int, inInt64 n → 2 ∣ n → n ≠ 2 → IsPrime fuel n = some (Outcome.returns false) := by
  constructor
  · simp [IsPrime]
  · intro n _ hev hne
    unfold IsPrime
    by_cases h2 : n < 2
    · simp [h2]
    · have hmod : Int.tmod n 2 = 0 := by
        rw [Int.tmod_eq_emod (by omega) (by norm_num)]
        omega
      simp [h2, hmod, hne]

/-- Witness of C4 at `n = 2^62`. -/
theorem isPrime_even_witness :
    inInt64 4611686018427387904 ∧ (2 : Int) ∣ 4611686018427387904 ∧
      (4611686018427387904 : Int) ≠ 2 ∧
      IsPrime 0 4611686018427387904 = some (Outcome.returns false) :=
  ⟨by decide, by decide, by decide,
    (isPrime_even 0).2 4611686018427387904 (by decide) (by decide) (by decide)⟩

/-- C5: for every odd `n ≥ 3` of the `int64` range the loop bound does not
under-shoot: it is at least the integer square root of `n`, so every `d` with
`d * d ≤ n` is at most the bound. -/
theorem limit_ge_sqrt (n : Int) (hn : inInt64 n) (h3 : 3 ≤ n) (_hodd : n % 2 = 1) :
    (Nat.sqrt n.toNat : Int) ≤ limit n ∧ ∀ d : Int, d * d ≤ n → d ≤ limit n := by
  obtain ⟨N, rfl⟩ : ∃ N : Nat, n = (N : Int) := ⟨n.toNat, by omega⟩
  have hN63 : N < 2 ^ 63 := by
    have := hn.2
    unfold maxInt64 at this
    omega
  obtain ⟨L, hL, hL1, _, _⟩ := limit_natCast N (by omega) hN63
  rw [hL, Int.toNat_ofNat]
  refine ⟨by exact_mod_cast hL1, fun d hd => ?_⟩
  by_cases hd0 : d ≤ 0
  · omega
  · obtain ⟨D, rfl⟩ : ∃ D : Nat, d = (D : Int) := ⟨d.toNat, by omega⟩
    have hD : D * D ≤ N := by exact_mod_cast hd
    have : D ≤ Nat.sqrt N := Nat.le_sqrt.2 hD
    have : D ≤ L := le_trans this hL1
    exact_mod_cast this

/-- Witness of C5 at the largest `int64`. -/
theorem limit_ge_sqrt_witness :
    inInt64 9223372036854775807 ∧ (3 : Int) ≤ 9223372036854775807 ∧
      (9223372036854775807 : Int) % 2 = 1 ∧
      (Nat.sqrt (9223372036854775807 : Int).toNat : Int) ≤ limit 9223372036854775807 ∧
      ∀ d : Int, d * d ≤ 9223372036854775807 → d ≤ limit 9223372036854775807 :=
  ⟨by decide, by decide, by decide,
    limit_ge_sqrt 9223372036854775807 (by decide) (by decide) (by decide)⟩

set_option maxRecDepth 100000 in
/-- C6, counterexample: for the odd `int64` `n = 2^54 + 2^28 - 1` the loop bound
is `2^27 + 1`, whose square exceeds `n`: the bound is not the largest `d` with
`d * d ≤ n`. -/
theorem limit_ne_sqrt_counterexample :
    inInt64 18014398777917439 ∧ (3 : Int) ≤ 18014398777917439 ∧
      (18014398777917439 : Int) % 2 = 1 ∧
      limit 18014398777917439 = 134217729 ∧
      ¬ ((134217729 : Int) * 134217729 ≤ 18014398777917439) := by
  decide

/-- C6, amended: for every odd `n ≥ 3` of the `int64` range the loop bound is the
integer square root of `n` or one more than it, and it is the integer square
root whenever `n < 2^52`. -/
theorem limit_eq_sqrt_or_succ (n : Int) (hn : inInt64 n) (h3 : 3 ≤ n) (_hodd : n % 2 = 1) :
    (limit n = (Nat.sqrt n.toNat : Int) ∨ limit n = (Nat.sqrt n.toNat : Int) + 1) ∧
      (n < 2 ^ 52 → limit n = (Nat.sqrt n.toNat : Int)) := by
  obtain ⟨N, rfl⟩ : ∃ N : Nat, n = (N : Int) := ⟨n.toNat, by omega⟩
  have hN63 : N < 2 ^ 63 := by
    have := hn.2
    unfold maxInt64 at this
    omega
  obtain ⟨L, hL, hL1, hL2, hL3⟩ := limit_natCast N (by omega) hN63
  rw [hL, Int.toNat_ofNat]
  constructor
  · omega
  · intro h52
    have : N < 2 ^ 52 := by exact_mod_cast h52
    rw [hL3 this]

/-- Witness of the amended C6 at `n = 2^54 + 2^28 - 1`. -/
theorem limit_eq_sqrt_or_succ_witness :
    inInt64 18014398777917439 ∧ (3 : Int) ≤ 18014398777917439 ∧
      (18014398777917439 : Int) % 2 = 1 ∧
      ((limit 18014398777917439 = (Nat.sqrt (18014398777917439 : Int).toNat : Int) ∨
        limit 18014398777917439 = (Nat.sqrt (18014398777917439 : Int).toNat : Int) + 1) ∧
      ((18014398777917439 : Int) < 2 ^ 52 →
        limit 18014398777917439 = (Nat.sqrt (18014398777917439 : Int).toNat : Int))) :=
  ⟨by decide, by decide, by decide,
    limit_eq_sqrt_or_succ 18014398777917439 (by decide) (by decide) (by decide)⟩

/-- C7: `IsPrime` returns `true` for every number of the reference list of
primes 2, 3, 5, 7, 11, 13, 17, 19, 23, 29, 97, 7919. -/
theorem isPrime_reference_primes (fuel : Nat) (hf : 2 ^ 31 ≤ fuel) :
    ∀ p ∈ ([2, 3, 5, 7, 11, 13, 17, 19, 23, 29, 97, 7919] : List Int),
      IsPrime fuel p = some (Outcome.returns true) := by
  intro p hp
  have key : ∀ q : Nat, Nat.Prime q → q < 2 ^ 63 →
      IsPrime fuel (q : Int) = some (Outcome.returns true) := by
    intro q hq hlt
    have hin : inInt64 (q : Int) := by
      unfold inInt64 minInt64 maxInt64
      constructor <;> omega
    obtain ⟨b, hb, hbs⟩ := IsPrime_spec _ hin fuel hf
    rw [Int.toNat_ofNat] at hbs
    rw [hbs.2 hq] at hb
    exact hb
  simp only [List.mem_cons, List.mem_singleton, List.mem_nil_iff, or_false] at hp
  rcases hp with rfl | rfl | rfl | rfl | rfl | rfl | rfl | rfl | rfl | rfl | rfl | rfl
  · exact key 2 (by norm_num) (by norm_num)
  · exact key 3 (by norm_num) (by norm_num)
  · exact key 5 (by norm_num) (by norm_num)
  · exact key 7 (by norm_num) (by norm_num)
  · exact key 11 (by norm_num) (by norm_num)
  · exact key 13 (by norm_num) (by norm_num)
  · exact key 17 (by norm_num) (by norm_num)
  · exact key 19 (by norm_num) (by norm_num)
  · exact key 23 (by norm_num) (by norm_num)
  · exact key 29 (by norm_num) (by norm_num)
  · exact key 97 (by norm_num) (by norm_num)
  · exact key 7919 (by norm_num) (by norm_num)

/-- Witness of C7 at 7919. -/
theorem isPrime_reference_primes_witness :
    2 ^ 31 ≤ 2 ^ 31 ∧
      (7919 : Int) ∈ ([2, 3, 5, 7, 11, 13, 17, 19, 23, 29, 97, 7919] : List Int) ∧
      IsPrime (2 ^ 31) 7919 = some (Outcome.returns true) :=
  ⟨le_refl _, by decide, isPrime_reference_primes (2 ^ 31) (le_refl _) 7919 (by decide)⟩

/-- C8: `IsPrime` returns `false` for every number of the reference list of
composites 4, 6, 9, 15, 21, 25, 49, 121, 7921. -/
theorem isPrime_reference_composites (fuel : Nat) (hf : 2 ^ 31 ≤ fuel) :
    ∀ c ∈ ([4, 6, 9, 15, 21, 25, 49, 121, 7921] : List Int),
      IsPrime fuel c = some (Outcome.returns false) := by
  intro c hc
  have key : ∀ q : Nat, ¬ Nat.Prime q → q < 2 ^ 63 →
      IsPrime fuel (q : Int) = some (Outcome.returns false) := by
    intro q hq hlt
    have hin : inInt64 (q : Int) := by
      unfold inInt64 minInt64 maxInt64
      constructor <;> omega
    obtain ⟨b, hb, hbs⟩ := IsPrime_spec _ hin fuel hf
    rw [Int.toNat_ofNat] at hbs
    cases b with
    | false => exact hb
    | true => exact absurd (hbs.1 rfl) hq
  simp only [List.mem_cons, List.mem_singleton, List.mem_nil_iff, or_false] at hc
  rcases hc with rfl | rfl | rfl | rfl | rfl | rfl | rfl | rfl | rfl
  · exact key 4 (by norm_num) (by norm_num)
  · exact key 6 (by norm_num) (by norm_num)
  · exact key 9 (by norm_num) (by norm_num)
  · exact key 15 (by norm_num) (by norm_num)
  · exact key 21 (by norm_num) (by norm_num)
  · exact key 25 (by norm_num) (by norm_num)
  · exact key 49 (by norm_num) (by norm_num)
  · exact key 121 (by norm_num) (by norm_num)
  · exact key 7921 (by norm_num) (by norm_num)

/-- Witness of C8 at 7921. -/
theorem isPrime_reference_composites_witness :
    2 ^ 31 ≤ 2 ^ 31 ∧ (7921 : Int) ∈ ([4, 6, 9, 15, 21, 25, 49, 121, 7921] : List Int) ∧
      IsPrime (2 ^ 31) 7921 = some (Outcome.returns false) :=
  ⟨le_refl _, by decide, isPrime_reference_composites (2 ^ 31) (le_refl _) 7921 (by decide)⟩

/-- C9: `IsPrime` is total over the `int64` values: for every input there is a
boolean that the function returns as soon as the loop is given `2^31`
evaluations of its condition; the run neither goes on for ever nor panics. -/
theorem isPrime_total (n : Int) (hn : inInt64 n) :
    ∃ b : Bool, ∀ fuel, 2 ^ 31 ≤ fuel → IsPrime fuel n = some (Outcome.returns b) := by
  refine ⟨decide (Nat.Prime n.toNat), fun fuel hf => ?_⟩
  obtain ⟨b, hb, hbs⟩ := IsPrime_spec n hn fuel hf
  rw [hb]
  congr 2
  cases b with
  | false =>
    have : ¬ Nat.Prime n.toNat := fun h => by simpa using hbs.2 h
    simp [this]
  | true => simp [hbs.1 rfl]

/-- Witness of C9 at the largest `int64`. -/
theorem isPrime_total_witness :
    inInt64 9223372036854775807 ∧
      ∃ b : Bool, ∀ fuel, 2 ^ 31 ≤ fuel →
        IsPrime fuel 9223372036854775807 = some (Outcome.returns b) :=
  ⟨by decide, isPrime_total 9223372036854775807 (by decide)⟩

set_option maxRecDepth 100000 in
/-- C10, counterexample: on the input `17` and a newline the program writes the
prompt `Inserisci un numero: ` and the verdict `17 è un numero primo` with a
newline; the text `17 is a prime number` occurs nowhere in its output. -/
theorem main_output_counterexample :
    readString "17\n".toList = some "17\n".toList ∧
      parseInt (trimSpace "17\n".toList) = Except.ok 17 ∧
      main id (2 ^ 31) "17\n".toList =
        some ⟨"Inserisci un numero: 17 è un numero primo\n".toList, [], 0⟩ ∧
      ¬ ("17 is a prime number".toList <:+:
          "Inserisci un numero: 17 è un numero primo\n".toList) :=
  ⟨by decide, by rfl, by decide, by decide⟩

/-- C10, amended: for every input whose first line parses, after trimming, to an
`int64` `n`, the program writes to standard output the prompt
`Inserisci un numero: ` followed by the decimal `n` and ` è un numero primo`
when `IsPrime(n)` is true, ` non è un numero primo` otherwise, and a newline;
it writes nothing to standard error and exits with status 0. -/
theorem main_prints_verdict (quote : List Char → List Char) (stdin line : List Char) (n : Int)
    (hline : readString stdin = some line)
    (hparse : parseInt (trimSpace line) = Except.ok n) (fuel : Nat) (hf : 2 ^ 31 ≤ fuel) :
    ∃ b, IsPrime fuel n = some (Outcome.returns b) ∧
      main quote fuel stdin =
        some ⟨"Inserisci un numero: ".toList ++ formatInt n ++
          (if b = true then " è un numero primo\n".toList
            else " non è un numero primo\n".toList), [], 0⟩ := by
  obtain ⟨b, hb, _⟩ := IsPrime_spec n (parseInt_range _ n hparse) fuel hf
  refine ⟨b, hb, ?_⟩
  unfold main
  simp only [hline, hparse, hb]
  cases b <;> simp

set_option maxRecDepth 100000 in
/-- Witness of the amended C10 on the input `18` and a newline. -/
theorem main_prints_verdict_witness :
    readString "18\n".toList = some "18\n".toList ∧
      parseInt (trimSpace "18\n".toList) = Except.ok 18 ∧ 2 ^ 31 ≤ 2 ^ 31 ∧
      ∃ b, IsPrime (2 ^ 31) 18 = some (Outcome.returns b) ∧
        main id (2 ^ 31) "18\n".toList =
          some ⟨"Inserisci un numero: ".toList ++ formatInt 18 ++
            (if b = true then " è un numero primo\n".toList
              else " non è un numero primo\n".toList), [], 0⟩ :=
  ⟨by decide, by rfl, le_refl _,
    main_prints_verdict id "18\n".toList "18\n".toList 18 (by decide) (by rfl) (2 ^ 31)
      (le_refl _)⟩

/-- C11: for every input line whose trimmed content is not a base-10 integer of
the `int64` range, the program writes an error to standard error, writes
nothing but the prompt to standard output (no verdict), and exits with
status 1. -/
theorem main_rejects_invalid (quote : List Char → List Char) (fuel : Nat)
    (stdin line : List Char) (hline : readString stdin = some line)
    (hbad : ¬ ∃ n, decimalInt (trimSpace line) = some n ∧ inInt64 n) :
    ∃ msg, msg ≠ [] ∧
      main quote fuel stdin = some ⟨"Inserisci un numero: ".toList, msg, 1⟩ := by
  cases hp : parseInt (trimSpace line) with
  | ok n => exact absurd ⟨n, parseInt_ok _ n hp, parseInt_range _ n hp⟩ hbad
  | error e =>
    refine ⟨"Numero non valido: ".toList ++ numErrorText quote (trimSpace line) e ++
      "\n".toList, by simp, ?_⟩
    unfold main
    simp only [hline, hp]

/-- Witness of C11 on the lines `abc`, the empty line, and `9223372036854775808`
(one above the largest `int64`). -/
theorem main_rejects_invalid_witness :
    (readString "abc\n".toList = some "abc\n".toList ∧
      (¬ ∃ n, decimalInt (trimSpace "abc\n".toList) = some n ∧ inInt64 n) ∧
      ∃ msg, msg ≠ [] ∧
        main id 0 "abc\n".toList = some ⟨"Inserisci un numero: ".toList, msg, 1⟩) ∧
    (readString "\n".toList = some "\n".toList ∧
      (¬ ∃ n, decimalInt (trimSpace "\n".toList) = some n ∧ inInt64 n) ∧
      ∃ msg, msg ≠ [] ∧
        main id 0 "\n".toList = some ⟨"Inserisci un numero: ".toList, msg, 1⟩) ∧
    (readString "9223372036854775808\n".toList = some "9223372036854775808\n".toList ∧
      (¬ ∃ n, decimalInt (trimSpace "9223372036854775808\n".toList) = some n ∧ inInt64 n) ∧
      ∃ msg, msg ≠ [] ∧
        main id 0 "9223372036854775808\n".toList =
          some ⟨"Inserisci un numero: ".toList, msg, 1⟩) := by
  have h1 : ¬ ∃ n, decimalInt (trimSpace "abc\n".toList) = some n ∧ inInt64 n := by
    rintro ⟨n, h, _⟩
    rw [show decimalInt (trimSpace "abc\n".toList) = none by decide] at h
    cases h
  have h2 : ¬ ∃ n, decimalInt (trimSpace "\n".toList) = some n ∧ inInt64 n := by
    rintro ⟨n, h, _⟩
    rw [show decimalInt (trimSpace "\n".toList) = none by decide] at h
    cases h
  have h3 : ¬ ∃ n, decimalInt (trimSpace "9223372036854775808\n".toList) = some n ∧
      inInt64 n := by
    rintro ⟨n, h, hr⟩
    rw [show decimalInt (trimSpace "9223372036854775808\n".toList) =
      some 9223372036854775808 by decide] at h
    cases h
    exact absurd hr (by decide)
  exact ⟨⟨by decide, h1, main_rejects_invalid id 0 _ _ (by decide) h1⟩,
    ⟨by decide, h2, main_rejects_invalid id 0 _ _ (by decide) h2⟩,
    ⟨by decide, h3, main_rejects_invalid id 0 _ _ (by decide) h3⟩⟩

/-- C12, counterexample: on the empty input the program writes
`Inserisci un numero: ` to standard output and then tries to read; the text
`Enter a number: ` occurs nowhere in its output. -/
theorem main_prompt_counterexample :
    main id 0 [] =
        some ⟨"Inserisci un numero: ".toList, "Errore lettura: EOF\n".toList, 1⟩ ∧
      mainEvents id 0 [] =
        some [Event.print "Inserisci un numero: ".toList, Event.readLine,
          Event.printErr "Errore lettura: EOF\n".toList] ∧
      ¬ ("Enter a number: ".toList <:+: "Inserisci un numero: ".toList) :=
  ⟨by decide, by decide, by decide⟩

/-- C12, amended: before reading any input the program writes exactly the
prompt `Inserisci un numero: ` to standard output: every run, on whatever
input, begins with the print of that text, followed by the read, and the
standard output of the run is that text followed by what is printed later. -/
theorem main_prompt_first (quote : List Char → List Char) (fuel : Nat) (hf : 2 ^ 31 ≤ fuel)
    (stdin : List Char) :
    ∃ (rest : List Event) (r : Run),
      mainEvents quote fuel stdin =
        some (Event.print "Inserisci un numero: ".toList :: Event.readLine :: rest) ∧
      main quote fuel stdin = some r ∧
      r.stdout = "Inserisci un numero: ".toList ++ printed rest := by
  unfold mainEvents main
  cases h1 : readString stdin with
  | none => exact ⟨_, _, rfl, rfl, by simp [printed]⟩
  | some line =>
    simp only
    cases h2 : parseInt (trimSpace line) with
    | error e => exact ⟨_, _, rfl, rfl, by simp [printed]⟩
    | ok n =>
      simp only
      obtain ⟨b, hb, _⟩ := IsPrime_spec n (parseInt_range _ n h2) fuel hf
      rw [hb]
      cases b
      · exact ⟨_, _, rfl, rfl, by simp [printed]⟩
      · exact ⟨_, _, rfl, rfl, by simp [printed]⟩

set_option maxRecDepth 100000 in
/-- Witness of the amended C12 on the input `17` and a newline. -/
theorem main_prompt_first_witness :
    2 ^ 31 ≤ 2 ^ 31 ∧
      mainEvents id (2 ^ 31) "17\n".toList =
        some [Event.print "Inserisci un numero: ".toList, Event.readLine,
          Event.print "17 è un numero primo\n".toList] ∧
      main id (2 ^ 31) "17\n".toList =
        some ⟨"Inserisci un numero: 17 è un numero primo\n".toList, [], 0⟩ ∧
      ∃ (rest : List Event) (r : Run),
        mainEvents id (2 ^ 31) "17\n".toList =
          some (Event.print "Inserisci un numero: ".toList :: Event.readLine :: rest) ∧
        main id (2 ^ 31) "17\n".toList = some r ∧
        r.stdout = "Inserisci un numero: ".toList ++ printed rest :=
  ⟨le_refl _, by decide, by decide, main_prompt_first id (2 ^ 31) (le_refl _) "17\n".toList⟩

/-- C14: for every `int64` `n`, `IsPrime(n)`, whose loop is bounded by the
truncated floating-point square root, returns the result of the algorithm of
the specification, whose loop tests `d * d ≤ n` in exact integers: `false` if
`n < 2`, `n == 2` if `n` is even, and otherwise `false` if and only if some odd
`d ≥ 3` with `d * d ≤ n` divides `n`. -/
theorem isPrime_refines_spec (n : Int) (hn : inInt64 n) (fuel : Nat) (hf : 2 ^ 31 ≤ fuel) :
    ∃ b, IsPrime fuel n = some (Outcome.returns b) ∧ specIsPrime fuel n = some b ∧
      (2 ≤ n → n % 2 = 1 →
        (b = false ↔ ∃ d : Int, 3 ≤ d ∧ d % 2 = 1 ∧ d * d ≤ n ∧ d ∣ n)) := by
  obtain ⟨b, hb, hbs⟩ := IsPrime_spec n hn fuel hf
  refine ⟨b, hb, ?_⟩
  unfold IsPrime at hb
  unfold specIsPrime
  by_cases h2 : n < 2
  · simp only [h2, if_true] at hb ⊢
    exact ⟨by simpa using hb, fun h => by omega⟩
  · obtain ⟨N, rfl⟩ : ∃ N : Nat, n = (N : Int) := ⟨n.toNat, by omega⟩
    have hN63 : N < 2 ^ 63 := by
      have := hn.2
      unfold maxInt64 at this
      omega
    have hmod : Int.tmod (N : Int) 2 = (N : Int) % 2 := rfl
    simp only [h2, if_false, hmod] at hb ⊢
    by_cases hev : (N : Int) % 2 = 0
    · simp only [hev, if_true] at hb ⊢
      exact ⟨by simpa using hb, fun _ h => by omega⟩
    · simp only [hev, if_false] at hb ⊢
      have hodd : N % 2 ≠ 0 := by omega
      have hs32 : Nat.sqrt N < 2 ^ 32 := by
        rw [Nat.sqrt_lt]; exact lt_trans hN63 (by norm_num)
      obtain ⟨f, rfl⟩ : ∃ f, fuel = f + 1 := ⟨fuel - 1, by omega⟩
      obtain ⟨c, hc, hcs⟩ :=
        loop_spec N (Nat.sqrt N) (by omega) f 3 (by norm_num) (by omega)
      have hlt : Nat.sqrt N < N := by
        have := sqrt_succ_lt N (by omega)
        omega
      have hprime := no_odd_divisor_iff_prime N (Nat.sqrt N) (by omega) hodd (le_refl _) hlt
      rw [Int.toNat_ofNat] at hbs
      have hcb : c = b := by
        have : c = true ↔ b = true := (hcs.trans hprime).trans hbs.symm
        cases b <;> cases c <;> simp_all
      subst hcb
      constructor
      · have hmap := specLoop_eq_loop N hN63 (f + 1) 3 (by norm_num)
        rw [hc] at hmap
        cases hsl : specLoop (f + 1) (N : Int) ((3 : Nat) : Int) with
        | none => rw [hsl] at hmap; simp at hmap
        | some c' =>
          rw [hsl] at hmap
          simp only [Option.map_some', Option.some.injEq, Outcome.returns.injEq] at hmap
          rw [hmap]
      · intro _ _
        constructor
        · intro hfalse
          have hne : ¬ ∀ k, 3 + 2 * k ≤ Nat.sqrt N → ¬ (3 + 2 * k) ∣ N := by
            intro hall
            rw [hcs.2 hall] at hfalse
            cases hfalse
          simp only [not_forall, not_not] at hne
          obtain ⟨k, hk, hd⟩ := hne
          refine ⟨((3 + 2 * k : Nat) : Int), by omega, by omega, ?_,
            Int.natCast_dvd_natCast.2 hd⟩
          exact_mod_cast Nat.le_sqrt.1 hk
        · rintro ⟨d, hd3, hdodd, hdsq, hdvd⟩
          obtain ⟨D, rfl⟩ : ∃ D : Nat, d = (D : Int) := ⟨d.toNat, by omega⟩
          have hD : D ≤ Nat.sqrt N := Nat.le_sqrt.2 (by exact_mod_cast hdsq)
          have hDd : D ∣ N := Int.natCast_dvd_natCast.1 hdvd
          have e : D = 3 + 2 * ((D - 3) / 2) := by omega
          cases hbv : c with
          | false => rfl
          | true =>
            have hall := hcs.1 hbv
            exact absurd (e ▸ hDd) (hall ((D - 3) / 2) (by omega))

set_option maxRecDepth 100000 in
/-- Witness of C14 at `n = 7921`, the square of 89. -/
theorem isPrime_refines_spec_witness :
    inInt64 7921 ∧ 2 ^ 31 ≤ 2 ^ 31 ∧ specIsPrime (2 ^ 31) 7921 = some false ∧
      ∃ b, IsPrime (2 ^ 31) 7921 = some (Outcome.returns b) ∧
        specIsPrime (2 ^ 31) 7921 = some b ∧
        ((2 : Int) ≤ 7921 → (7921 : Int) % 2 = 1 →
          (b = false ↔ ∃ d : Int, 3 ≤ d ∧ d % 2 = 1 ∧ d * d ≤ 7921 ∧ d ∣ 7921)) :=
  ⟨by decide, le_refl _, by decide,
    isPrime_refines_spec 7921 (by decide) (2 ^ 31) (le_refl _)⟩

/-- C15: for every `int64` `n ≥ 2` the loop bound is less than `n`, so no value
of the counter that is tested as a divisor is `n` itself; and if `IsPrime(n)`
returns `false`, whatever the fuel, then `n` is composite, having a divisor `d`
with `1 < d < n`. -/
theorem isPrime_false_composite (n : Int) (hn : inInt64 n) (h2 : 2 ≤ n) :
    limit n < n ∧
      (∀ fuel, ∀ i ∈ IsPrimeCounters fuel n, i ≤ limit n → i < n) ∧
      (∀ fuel, IsPrime fuel n = some (Outcome.returns false) →
        ∃ d : Int, 1 < d ∧ d < n ∧ d ∣ n) := by
  have hlim : limit n < n := by
    obtain ⟨N, rfl⟩ : ∃ N : Nat, n = (N : Int) := ⟨n.toNat, by omega⟩
    have hN63 : N < 2 ^ 63 := by
      have := hn.2
      unfold maxInt64 at this
      omega
    obtain ⟨L, hL, _, hL2, hL3⟩ := limit_natCast N (by omega) hN63
    rw [hL]
    by_cases h3 : 3 ≤ N
    · have := sqrt_succ_lt N h3
      omega
    · have hN : N = 2 := by omega
      subst hN
      have hs : Nat.sqrt 2 < 2 := Nat.sqrt_lt.2 (by norm_num)
      have := hL3 (by norm_num)
      omega
  refine ⟨hlim, fun fuel i _ hi => lt_of_le_of_lt hi hlim, fun fuel h => ?_⟩
  obtain ⟨N, rfl⟩ : ∃ N : Nat, n = (N : Int) := ⟨n.toNat, by omega⟩
  have hN2 : 2 ≤ N := by omega
  obtain ⟨b, hb, hbs⟩ := IsPrime_result _ hn fuel _ h
  rw [Int.toNat_ofNat] at hbs
  have hbf : b = false := by
    simp only [Outcome.returns.injEq] at hb
    exact hb.symm
  have hnp : ¬ Nat.Prime N := by
    intro hp
    rw [hbs.2 hp] at hbf
    cases hbf
  obtain ⟨m, hm, hm2, hmN⟩ := Nat.exists_dvd_of_not_prime2 hN2 hnp
  exact ⟨(m : Int), by omega, by omega, Int.natCast_dvd_natCast.2 hm⟩

set_option maxRecDepth 100000 in
/-- Witness of C15: at `n = 9`, where `IsPrime` returns `false` and 3 is the
divisor; and at the prime `n = 3`, where the bound is 1, the loop condition
fails at once and `IsPrime` returns `true`. -/
theorem isPrime_false_composite_witness :
    (inInt64 9 ∧ (2 : Int) ≤ 9 ∧ IsPrime 1 9 = some (Outcome.returns false) ∧
      limit 9 < 9 ∧ ∃ d : Int, 1 < d ∧ d < 9 ∧ d ∣ 9) ∧
    (inInt64 3 ∧ (2 : Int) ≤ 3 ∧ limit 3 = 1 ∧ limit 3 < 3 ∧
      IsPrimeCounters 1 3 = [3] ∧ IsPrime 1 3 = some (Outcome.returns true)) :=
  ⟨⟨by decide, by decide, by decide,
      (isPrime_false_composite 9 (by decide) (by decide)).1,
      (isPrime_false_composite 9 (by decide) (by decide)).2.2 1 (by decide)⟩,
    ⟨by decide, by decide, by decide,
      (isPrime_false_composite 3 (by decide) (by decide)).1, by decide, by decide⟩⟩

/-- C16: for every `int64` input and whatever the fuel, `IsPrime` does not
panic, and every value `i` of the loop counter is odd with
`3 ≤ i ≤ limit + 2`, where `limit < 2^32`; so `i` is not zero (`n % i` does not
divide by zero) and `i + 2` is in the `int64` range (`i += 2` does not wrap). -/
theorem loop_counter_safe (n : Int) (hn : inInt64 n) (fuel : Nat) :
    IsPrime fuel n ≠ some Outcome.panics ∧
      ∀ i ∈ IsPrimeCounters fuel n,
        i % 2 = 1 ∧ 3 ≤ i ∧ i ≤ limit n + 2 ∧ limit n < 2 ^ 32 ∧ i ≠ 0 ∧
          wrapInt64 (i + 2) = i + 2 := by
  constructor
  · intro h
    obtain ⟨b, hb, _⟩ := IsPrime_result n hn fuel _ h
    cases hb
  · intro i hi
    unfold IsPrimeCounters at hi
    by_cases h2 : n < 2
    · simp [h2] at hi
    · simp only [h2, if_false] at hi
      by_cases hev : Int.tmod n 2 = 0
      · simp [hev] at hi
      · simp only [hev, if_false] at hi
        obtain ⟨N, rfl⟩ : ∃ N : Nat, n = (N : Int) := ⟨n.toNat, by omega⟩
        have hN63 : N < 2 ^ 63 := by
          have := hn.2
          unfold maxInt64 at this
          omega
        obtain ⟨L, hL, hL1, hL2, _⟩ := limit_natCast N (by omega) hN63
        have hs1 : 1 ≤ Nat.sqrt N := Nat.le_sqrt.2 (by omega)
        have hs32 : Nat.sqrt N < 2 ^ 32 - 1 := by
          rw [Nat.sqrt_lt]; exact lt_trans hN63 (by norm_num)
        rw [hL] at hi ⊢
        have hinv := loopCounters_invariant (N : Int) (L : Int) (by omega) fuel 3
          (by norm_num) (by norm_num) (by omega) i hi
        obtain ⟨ho, h3, hle⟩ := hinv
        refine ⟨ho, h3, hle, by omega, by omega, ?_⟩
        exact wrapInt64_eq _ (by omega) (by omega)

/-- Witness of C16 at the largest `int64`. -/
theorem loop_counter_safe_witness :
    inInt64 9223372036854775807 ∧
      (IsPrime (2 ^ 31) 9223372036854775807 ≠ some Outcome.panics ∧
        ∀ i ∈ IsPrimeCounters (2 ^ 31) 9223372036854775807,
          i % 2 = 1 ∧ 3 ≤ i ∧ i ≤ limit 9223372036854775807 + 2 ∧
            limit 9223372036854775807 < 2 ^ 32 ∧ i ≠ 0 ∧ wrapInt64 (i + 2) = i + 2) :=
  ⟨by decide, loop_counter_safe 9223372036854775807 (by decide) (2 ^ 31)⟩

/-- C17: if standard input ends before a newline, be it empty or a number such
as `17` without a newline, the program reports a read error on standard error,
writes nothing but the prompt to standard output (no verdict), and exits with
status 1. -/
theorem main_read_failure (quote : List Char → List Char) (fuel : Nat) (stdin : List Char)
    (h : '\n' ∉ stdin) :
    main quote fuel stdin =
      some ⟨"Inserisci un numero: ".toList, "Errore lettura: EOF\n".toList, 1⟩ := by
  unfold main
  simp only [readString_eq_none stdin h]

/-- Witness of C17 on the input `17` without a newline and on the empty input. -/
theorem main_read_failure_witness :
    ('\n' ∉ "17".toList ∧
      main id 0 "17".toList =
        some ⟨"Inserisci un numero: ".toList, "Errore lettura: EOF\n".toList, 1⟩) ∧
    ('\n' ∉ ([] : List Char) ∧
      main id 0 [] =
        some ⟨"Inserisci un numero: ".toList, "Errore lettura: EOF\n".toList, 1⟩) :=
  ⟨⟨by decide, main_read_failure id 0 "17".toList (by decide)⟩,
    ⟨by decide, main_read_failure id 0 [] (by decide)⟩⟩

end Clike
